import Mathlib

/-!
Verification of the table-normalization and record-synthesis pipeline of
FormulatorPro-PeriodicExecution.

The pipeline's cell strings are modelled as `List Char` (`Str`).  Python
`re` whitespace (`\s`) is modelled by `isSpaceC`, covering the whitespace
characters that can actually occur in the pipeline's data (ASCII whitespace,
NBSP and the ideographic space U+3000).  Python `\d` is modelled by
`isDigitC`, covering ASCII and full-width digits.

Sources embedded below:
 * `src/main.py`   (PDF variant): `clean_df`/`_strip_cell`, `drop_unwanted_rows`,
   `_TOKEN_IS_AMOUNT`, `move_amount_token_from_col1_to_col2`,
   `squash_left_when_many_tokens_and_right_one`, `df_to_records`, `main`.
 * `src/html_to_table.py` (HTML variant): `_norm`, `is_header_row`,
   `strip_units_and_note`, `strip_units_and_note_value_only`,
   `has_meaningful_values`, `row_to_record`, `main`.
-/

abbrev Str := List Char

def ofS (s : String) : Str := s.data

/-- Python `\s` (and `str.strip`) whitespace, restricted to the characters
relevant to this pipeline's data. -/
def isSpaceC (c : Char) : Bool :=
  c = ' ' || c = '\t' || c = '\n' || c = '\r' || c = '\x0b' || c = '\x0c' ||
  c = ' ' || c = '　'

/-- Python `\d`: ASCII or full-width decimal digit. -/
def isDigitC (c : Char) : Bool :=
  ('0' ≤ c && c ≤ '9') || ('０' ≤ c && c ≤ '９')

/-- Embeds `s.replace("　", " ")`. -/
def mapIdeo (s : Str) : Str :=
  s.map (fun c => if c = '　' then ' ' else c)

/-- One step of run collapsing: `pend` records that a run of characters
satisfying `p` is pending and must be emitted as a single `' '` before the
next character that does not satisfy `p`.  Mirrors `re.sub(r"P+", " ", s)`. -/
def collapseGo (p : Char → Bool) : Str → Bool → Str
  | [], pend => if pend then [' '] else []
  | c :: rest, pend =>
    if p c then collapseGo p rest true
    else if pend then ' ' :: c :: collapseGo p rest false
    else c :: collapseGo p rest false

/-- Embeds `re.sub(r"P+", " ", s)` for a character class `P`. -/
def collapseBy (p : Char → Bool) (s : Str) : Str := collapseGo p s false

/-- Python `str.strip()`. -/
def pstrip (s : Str) : Str :=
  ((s.dropWhile isSpaceC).reverse.dropWhile isSpaceC).reverse

/-- Embeds `html_to_table._norm`: replace U+3000, collapse `\s+` to one space, strip. -/
def normS (s : Str) : Str := pstrip (collapseBy isSpaceC (mapIdeo s))

/-- Embeds `main._norm_no_space`: replace U+3000 by a space, delete all `\s`, strip. -/
def normNoSpace (s : Str) : Str :=
  pstrip ((mapIdeo s).filter (fun c => !isSpaceC c))

/-- Embeds `main._split_tokens`: `[t for t in re.split(r"\s+", s.strip()) if t]`,
i.e. the maximal whitespace-free runs of `s`. -/
def splitTokens : Str → List Str
  | [] => []
  | c :: rest =>
    if isSpaceC c then splitTokens rest
    else if isSpaceC (rest.headD ' ') then [c] :: splitTokens rest
    else (c :: (splitTokens rest).headD []) :: (splitTokens rest).tail

/-- Space-separated concatenation of a list of (nonempty) tokens. -/
def interc : List Str → Str
  | [] => []
  | [t] => t
  | t :: ts => t ++ ' ' :: interc ts

/-- Embeds `main._join_tokens`: `" ".join([t for t in tokens if t != ""])`. -/
def joinTokens (ts : List Str) : Str := interc (ts.filter (· ≠ []))

/-- Substring test, Python's `pat in s`. -/
def containsSub : Str → Str → Bool
  | s, pat =>
    pat.isPrefixOf s ||
      match s with
      | [] => false
      | _ :: rest => containsSub rest pat

/-- Fuel-driven body of `removeAll`; removes the leftmost occurrences of
`pat`, scanning left to right and resuming after each removed occurrence,
exactly like Python `s.replace(pat, "")`.  `fuel ≥ s.length` suffices. -/
def removeAllF (pat : Str) : Nat → Str → Str
  | 0, s => s
  | _ + 1, [] => []
  | f + 1, c :: rest =>
    if pat.isPrefixOf (c :: rest) then removeAllF pat f ((c :: rest).drop pat.length)
    else c :: removeAllF pat f rest

/-- Python `s.replace(pat, "")` (for nonempty `pat`). -/
def removeAll (pat : Str) (s : Str) : Str := removeAllF pat s.length s

-- Fixed literals of the pipeline.
def gokeiStr : Str := ofS "合計量として"
def kokusaiStr : Str := ofS "国際単位"
def seibunmeiStr : Str := ofS "成分名"
def haigouFukaStr : Str := ofS "配合負荷"
def haigouFukaStr2 : Str := ofS "配合不可"
def nanStr : Str := ofS "nan"

/-- Embeds `main._TOKEN_IS_AMOUNT`: full match of `^\d+(?:\.\d+)?(?:ｇ|国際単位)$`
(note: the weight marker is the full-width `ｇ`, U+FF47). -/
def tokenIsAmount (t : Str) : Bool :=
  let ds := t.takeWhile isDigitC
  let r := t.dropWhile isDigitC
  let sufOk : Str → Bool := fun u => u = ['ｇ'] || u = kokusaiStr
  decide (ds ≠ []) &&
    (sufOk r ||
      match r with
      | '.' :: r2 =>
        decide (r2.takeWhile isDigitC ≠ []) && sufOk (r2.dropWhile isDigitC)
      | _ => false)

/-- Embeds `html_to_table.NUM_RE`: full match of `^\d+(?:\.\d+)?$`. -/
def numRe (t : Str) : Bool :=
  let r := t.dropWhile isDigitC
  decide (t.takeWhile isDigitC ≠ []) &&
    (decide (r = []) ||
      match r with
      | '.' :: r2 => decide (r2.takeWhile isDigitC ≠ []) && decide (r2.dropWhile isDigitC = [])
      | _ => false)

def lowerStr (s : Str) : Str := s.map Char.toLower

/-- Embeds `main._is_int_string`: full match of `^\d+$`. -/
def isIntString (s : Str) : Bool := decide (s ≠ []) && s.all isDigitC

def cellAt (row : List Str) (j : Nat) : Str := row.getD j []

/-- The per-row drop predicate of `main.drop_unwanted_rows`.  The float
comparison `digit_only_cnt / len(nonempty) >= 0.8` is modelled by the exact
rational comparison `4 * len ≤ 5 * cnt` (`0.8 = 4/5`; for the row sizes at
hand the double rounding never crosses this threshold). -/
def dropRowPdf (row : List Str) : Bool :=
  let cells := row.map pstrip
  let ne := cells.filter (fun c => decide (c ≠ []) && !(lowerStr c == nanStr))
  let dcnt := (ne.filter isIntString).length
  let isDigitRow := decide (0 < ne.length) && decide (4 * ne.length ≤ 5 * dcnt)
  let isSeibunmei := normNoSpace (cellAt row 0) == seibunmeiStr
  isDigitRow || isSeibunmei

/-- Embeds `main.drop_unwanted_rows` on the list of rows. -/
def dropUnwantedRows (rows : List (List Str)) : List (List Str) :=
  rows.filter (fun r => !dropRowPdf r)

/-- The mutation loop of `move_amount_token_from_col1_to_col2` over the hit
indices, highest index first (`sorted(hits, reverse=True)`). -/
def processHits : List Nat → List Str → List Str → List Str × List Str
  | [], c1, c2 => (c1, c2)
  | i :: rest, c1, c2 =>
    if i = 0 then processHits rest c1 c2
    else
      let moved := c1.getD i []
      let c1' := c1.eraseIdx i
      let pos := i - 1
      let c2p := if c2.length < pos then c2 ++ List.replicate (pos - c2.length) [] else c2
      processHits rest c1' (c2p.insertIdx pos moved)

/-- Embeds the hit list `[i for i, tok in enumerate(c1) if _TOKEN_IS_AMOUNT.match(tok)]`. -/
def amountHits (c1 : List Str) : List Nat :=
  (List.range c1.length).filter (fun j => tokenIsAmount (c1.getD j []))

/-- The per-row body of `main.move_amount_token_from_col1_to_col2`. -/
def moveAmountRow (a b : Str) : Str × Str :=
  let c1 := splitTokens a
  let c2 := splitTokens b
  let pr := processHits (amountHits c1).reverse c1 c2
  (joinTokens pr.1, joinTokens pr.2)

/-- A pandas frame: a column count and the list of rows. -/
structure Df where
  ncols : Nat
  rows : List (List Str)
deriving Repr, DecidableEq

/-- Embeds `main.move_amount_token_from_col1_to_col2`. -/
def moveAmountDf (df : Df) : Df :=
  if df.ncols < 2 || df.rows.isEmpty then df
  else { df with rows := df.rows.map (fun r =>
    let mv := moveAmountRow (cellAt r 0) (cellAt r 1)
    (r.set 0 mv.1).set 1 mv.2) }

/-- The per-row body of `main.squash_left_when_many_tokens_and_right_one`. -/
def squashRow (r : List Str) : List Str :=
  let c1 := splitTokens (cellAt r 0)
  let c2 := splitTokens (cellAt r 1)
  if 3 ≤ c1.length && c2.length == 1 then r.set 0 c1.flatten else r

/-- Embeds `main.squash_left_when_many_tokens_and_right_one`. -/
def squashDf (df : Df) : Df :=
  if df.ncols < 2 || df.rows.isEmpty then df
  else { df with rows := df.rows.map squashRow }

/-- An output record of `main.df_to_records` (`seibunn`/`条件`/`ryou1..4`/
`tanni`/`bikou`/`url`). -/
structure Rec where
  seibunn : Str
  jouken : Str
  ryou1 : Str
  ryou2 : Str
  ryou3 : Str
  ryou4 : Str
  tanni : Str
  bikou : Str
  url : Str
deriving Repr, DecidableEq

/-- Embeds `main._strip_gokei_and_flag`. -/
def stripGokeiAndFlag (s : Str) : Str × Bool :=
  if containsSub s gokeiStr then (pstrip (removeAll gokeiStr s), true) else (s, false)

/-- Embeds `main._has_kokusai_tanni` applied to one value. -/
def hasKokusai (s : Str) : Bool := containsSub s kokusaiStr

/-- Embeds `main._contains_haigou_fuka`. -/
def containsHaigouFuka (s : Str) : Bool :=
  containsSub s haigouFukaStr || containsSub s haigouFukaStr2

/-- One match attempt of `(?:\s*ｇ\s*|\s*国際単位\s*)` at the current
position; on success, returns the remainder after the match. -/
def unitMatchAt (s : Str) : Option Str :=
  let t := s.dropWhile isSpaceC
  match t with
  | 'ｇ' :: r => some (r.dropWhile isSpaceC)
  | _ => if kokusaiStr.isPrefixOf t then some ((t.drop 4).dropWhile isSpaceC) else none

/-- Fuel-driven scan of `re.sub(r"(?:\s*ｇ\s*|\s*国際単位\s*)", "", s)`. -/
def stripUnitsGo : Nat → Str → Str
  | 0, s => s
  | _ + 1, [] => []
  | f + 1, c :: rest =>
    match unitMatchAt (c :: rest) with
    | some r => stripUnitsGo f r
    | none => c :: stripUnitsGo f rest

/-- Embeds `main._strip_units_for_ryou`. -/
def stripUnitsForRyou (s : Str) : Str := pstrip (stripUnitsGo s.length s)

/-- The `< 4` columns per-index record builder inside `main.df_to_records`. -/
def mkRec2 (url : Str) (equalLen : Bool) (cond : Str) (c1 c2 : List Str) (i : Nat) : Rec :=
  let r1raw := c2.getD i []
  let g := stripGokeiAndFlag r1raw
  let r1 := stripUnitsForRyou g.1
  let t0 : Str := if hasKokusai r1raw then kokusaiStr else ofS "g"
  { seibunn := c1.getD i []
    jouken := if equalLen then [] else cond
    ryou1 := r1, ryou2 := [], ryou3 := [], ryou4 := []
    tanni := if containsHaigouFuka r1 then [] else t0
    bikou := if g.2 then gokeiStr else []
    url := url }

/-- The `≥ 4` columns per-index record builder inside `main.df_to_records`. -/
def mkRec4 (url : Str) (equalLen : Bool) (cond : Str) (c1 c2 c3 c4 : List Str) (i : Nat) : Rec :=
  let v2 := c2.getD i []
  let v3 := c3.getD i []
  let v4 := c4.getD i []
  let found := [v2, v3, v4].find? (fun v => containsSub v gokeiStr)
  let r1raw := found.getD []
  let r1 := if r1raw ≠ [] then stripUnitsForRyou (stripGokeiAndFlag r1raw).1 else []
  let t0 : Str :=
    if hasKokusai r1raw || hasKokusai v2 || hasKokusai v3 || hasKokusai v4
    then kokusaiStr else ofS "g"
  { seibunn := c1.getD i []
    jouken := if equalLen then [] else cond
    ryou1 := r1
    ryou2 := stripUnitsForRyou v2
    ryou3 := stripUnitsForRyou v3
    ryou4 := stripUnitsForRyou v4
    tanni := if containsHaigouFuka r1 then [] else t0
    bikou := if found.isSome then gokeiStr else []
    url := url }

/-- One row of `main.df_to_records`. -/
def rowRecords (ncols : Nat) (url : Str) (row : List Str) : List Rec :=
  let c1 := splitTokens (cellAt row 0)
  let c2 := if 2 ≤ ncols then splitTokens (cellAt row 1) else []
  let c3 := if 3 ≤ ncols then splitTokens (cellAt row 2) else []
  let c4 := if 4 ≤ ncols then splitTokens (cellAt row 3) else []
  let equalLen := c1.length == c2.length
  let pop := !equalLen && !c1.isEmpty
  let cond := if pop then c1.headD [] else []
  let c1' := if pop then c1.tail else c1
  (List.range c1'.length).map (fun i =>
    if 4 ≤ ncols then mkRec4 url equalLen cond c1' c2 c3 c4 i
    else mkRec2 url equalLen cond c1' c2 i)

/-- Embeds `main.df_to_records`. -/
def dfToRecords (ncols : Nat) (rows : List (List Str)) (url : Str) : List Rec :=
  (rows.map (rowRecords ncols url)).flatten

/-- The per-table processing of `main.main` (drop rows, move amount tokens,
squash, synthesize records). -/
def pdfTableRecords (df : Df) (url : Str) : List Rec :=
  let d3 := squashDf (moveAmountDf { df with rows := dropUnwantedRows df.rows })
  dfToRecords d3.ncols d3.rows url

/-- All records of a run of `main.main` over the extracted tables. -/
def pdfRunRecords (items : List Df) (url : Str) : List Rec :=
  (items.map (fun df => pdfTableRecords df url)).flatten

/-- Embeds `main.main` signals failure (`sys.exit(1)`) exactly when the extracted
table list is empty; otherwise the run completes normally (an empty record
list only makes the append step a no-op). -/
def pdfRunFails (items : List Df) : Bool := items.isEmpty

/-- An output record of `html_to_table.row_to_record`: `seibunmei` = 成分名,
`amt1..amt4` = 最大配合量1..4, `tanni` = 単位, `bikou` = 備考. -/
structure HRec where
  seibunmei : Str
  amt1 : Str
  amt2 : Str
  amt3 : Str
  amt4 : Str
  tanni : Str
  bikou : Str
deriving Repr, DecidableEq

def hRecEmpty : HRec := ⟨[], [], [], [], [], [], []⟩

def removeGokei (s : Str) : Str := removeAll gokeiStr s

def removeKokusai (s : Str) : Str := removeAll kokusaiStr s

/-- Embeds `re.search(r"[gｇ]", s)`. -/
def hasGchar (s : Str) : Bool := s.any (fun c => c = 'g' || c = 'ｇ')

/-- Embeds `re.sub(r"[gｇ]", "", s)`. -/
def dropGchars (s : Str) : Str := s.filter (fun c => !(c = 'g' || c = 'ｇ'))

/-- Embeds `html_to_table.strip_units_and_note`: returns `(clean, unit, note)`. -/
def stripUnitsAndNote (val : Str) : Str × Str × Str :=
  let s0 := normS val
  let p1 := if containsSub s0 gokeiStr then (pstrip (removeGokei s0), gokeiStr)
            else (s0, ([] : Str))
  let s1 := p1.1
  let p2 := if containsSub s1 kokusaiStr then (removeKokusai s1, kokusaiStr)
            else (s1, ([] : Str))
  let s2 := p2.1
  let u1 := p2.2
  let p3 := if hasGchar s2 then (dropGchars s2, if u1 = [] then ofS "g" else u1)
            else (s2, u1)
  let s4 := normS p3.1
  let unit := if numRe s4 && p3.2.isEmpty then ofS "g" else p3.2
  (s4, unit, p1.2)

/-- Embeds `html_to_table.strip_units_and_note_value_only`. -/
def stripUnitsValueOnly (val : Str) : Str :=
  normS (dropGchars (removeKokusai (removeGokei (normS val))))

/-- The two-cell branch of `row_to_record` (also its fallback branch). -/
def twoCellRecord (a b : Str) : HRec :=
  let t := stripUnitsAndNote b
  { hRecEmpty with seibunmei := normS a, amt1 := t.1, tanni := t.2.1, bikou := t.2.2 }

/-- Embeds `html_to_table.row_to_record`. -/
def rowToRecord : List Str → HRec
  | [] => hRecEmpty
  | [a] => { hRecEmpty with seibunmei := normS a }
  | [a, b] => twoCellRecord a b
  | [a, b, c, d] =>
    let t := stripUnitsAndNote b
    { hRecEmpty with
      seibunmei := normS a
      amt2 := t.1
      tanni := t.2.1
      bikou := t.2.2
      amt3 := stripUnitsValueOnly c
      amt4 := stripUnitsValueOnly d }
  | a :: b :: _ => twoCellRecord a b

/-- Embeds `html_to_table.has_meaningful_values`. -/
def hasMeaningfulValues (r : HRec) : Bool :=
  decide (pstrip r.amt1 ≠ []) || decide (pstrip r.amt2 ≠ []) ||
  decide (pstrip r.amt3 ≠ []) || decide (pstrip r.amt4 ≠ []) ||
  decide (pstrip r.tanni ≠ []) || decide (pstrip r.bikou ≠ [])

/-- Embeds `html_to_table.EXPECTED_HEADER`. -/
def expectedHeader : List Str :=
  [ofS "粘膜に使用されることがない化粧品のうち洗い流すもの",
   ofS "粘膜に使用されることがない化粧品のうち洗い流さないもの",
   ofS "粘膜に使用されることがある化粧品"]

/-- Embeds `html_to_table.is_header_row`. -/
def isHeaderRow (cells : List Str) : Bool :=
  cells.map normS == expectedHeader.map normS

/-- The record construction and filter of `html_to_table.main`, applied to
the extracted tables of rows. -/
def htmlMainRecords (tables : List (List (List Str))) : List HRec :=
  (tables.map (fun t => (t.map rowToRecord).filter
    (fun r => decide (r.seibunmei ≠ []) && hasMeaningfulValues r))).flatten

/-- The character class removed inside full-width parentheses by
`_strip_cell` (`[ \t　]+`). -/
def isInnerWs (c : Char) : Bool := c = ' ' || c = '\t' || c = '　'

/-- Scanner for `re.sub(r"（([^）]*)）", …)` deleting `[ \t　]+` inside
each full-width parenthesis pair; the flag says we are inside a matched
pair.  A `（` opens a match only if a `）` follows somewhere. -/
def parenGo : Str → Bool → Str
  | [], _ => []
  | c :: rest, true =>
    if c = '）' then '）' :: parenGo rest false
    else if isInnerWs c then parenGo rest true
    else c :: parenGo rest true
  | c :: rest, false =>
    if c = '（' && rest.contains '）' then '（' :: parenGo rest true
    else c :: parenGo rest false

def parenSub (s : Str) : Str := parenGo s false

/-- Fuel-driven scan of `re.sub(r"(合計量として)\s+", r"\1", y)`. -/
def gokeiSpaceGo : Nat → Str → Str
  | 0, s => s
  | _ + 1, [] => []
  | f + 1, c :: rest =>
    if gokeiStr.isPrefixOf (c :: rest) &&
       (match (c :: rest).drop 6 with | d :: _ => isSpaceC d | [] => false)
    then gokeiStr ++ gokeiSpaceGo f (((c :: rest).drop 6).dropWhile isSpaceC)
    else c :: gokeiSpaceGo f rest

def gokeiSpaceSub (s : Str) : Str := gokeiSpaceGo s.length s

/-- Fuel-driven scan of `re.sub(r"\s+(?=国際単位)", "", y)`. -/
def kokusaiSpaceGo : Nat → Str → Str
  | 0, s => s
  | _ + 1, [] => []
  | f + 1, c :: rest =>
    if isSpaceC c && kokusaiStr.isPrefixOf ((c :: rest).dropWhile isSpaceC)
    then kokusaiSpaceGo f ((c :: rest).dropWhile isSpaceC)
    else c :: kokusaiSpaceGo f rest

def kokusaiSpaceSub (s : Str) : Str := kokusaiSpaceGo s.length s

def ethylStr : Str := ofS "2－エチル"

/-- Fuel-driven scan of `re.sub(r"(^|[^,])\s2－エチル", r"\1,2－エチル", y)`
for positions after the start of the string (group = `[^,]`); each match
consumes the group character, one whitespace character and the fragment,
and scanning resumes after the match. -/
def ethylGo : Nat → Str → Str
  | 0, s => s
  | _ + 1, [] => []
  | f + 1, c :: rest =>
    if !(c == ',') &&
       (match rest with | d :: r2 => isSpaceC d && ethylStr.isPrefixOf r2 | [] => false)
    then c :: ',' :: ethylStr ++ ethylGo f (rest.drop 6)
    else c :: ethylGo f rest

/-- The full `2－エチル` fix-up; at position 0 the `^` alternative of the
group is tried first (matching a leading whitespace + fragment). -/
def ethylSub (s : Str) : Str :=
  match s with
  | [] => []
  | c :: rest =>
    if isSpaceC c && ethylStr.isPrefixOf rest
    then ',' :: ethylStr ++ ethylGo s.length (rest.drop 5)
    else ethylGo s.length s

def isHT (c : Char) : Bool := c = ' ' || c = '\t'

/-- Embeds `main.clean_df`'s `_strip_cell` on one cell string: U+3000 replacement,
whitespace removal inside full-width parentheses, the three fixed textual
fix-ups, then `[ \t]+` collapse and strip. -/
def stripCell (s : Str) : Str :=
  pstrip (collapseBy isHT (ethylSub (kokusaiSpaceSub (gokeiSpaceSub (parenSub (mapIdeo s))))))

/-! ### Claim-side (spec-worded) predicates -/

/-- The "amount" token shape described by the spec for the Token
Redistributor: one or more digits, an optional decimal fraction, followed
immediately by the weight marker (the full-width `ｇ`) or the
international-unit marker. -/
def AmountShape (t : Str) : Prop :=
  ∃ ds fr mk : Str,
    t = ds ++ fr ++ mk ∧ ds ≠ [] ∧ (∀ c ∈ ds, isDigitC c = true) ∧
    (fr = [] ∨ ∃ fd : Str, fr = '.' :: fd ∧ fd ≠ [] ∧ ∀ c ∈ fd, isDigitC c = true) ∧
    (mk = ['ｇ'] ∨ mk = kokusaiStr)

/-- Row-classifier condition (1) of the claim: the row has at least one
non-empty, non-"nan" cell and the pure-integer ratio among those cells is
at least 0.8 (= 4/5). -/
def digitNoiseRow (row : List Str) : Prop :=
  let ne := (row.map pstrip).filter (fun c => decide (c ≠ []) && !(lowerStr c == nanStr))
  ne ≠ [] ∧ 4 * ne.length ≤ 5 * (ne.filter isIntString).length

/-- Row-classifier condition (2) of the claim: the column-0 text with all
whitespace removed equals the header label 成分名. -/
def seibunmeiHeaderRow (row : List Str) : Prop :=
  normNoSpace (cellAt row 0) = seibunmeiStr

/-- Row-classifier condition (3) of the claim: the cell-by-cell normalized
cell sequence equals the fixed three-entry header template. -/
def headerTemplateRow (row : List Str) : Prop :=
  row.map normS = expectedHeader.map normS

/-- The retention predicate of the Record Filter claim, HTML-variant
records: non-empty name and at least one non-empty meaningful field. -/
def hRecRetainable (r : HRec) : Prop :=
  r.seibunmei ≠ [] ∧
    (r.amt1 ≠ [] ∨ r.amt2 ≠ [] ∨ r.amt3 ≠ [] ∨ r.amt4 ≠ [] ∨ r.tanni ≠ [] ∨ r.bikou ≠ [])

/-- The retention predicate of the Record Filter claim, PDF-variant
records. -/
def recRetainable (r : Rec) : Prop :=
  r.seibunn ≠ [] ∧
    (r.ryou1 ≠ [] ∨ r.ryou2 ≠ [] ∨ r.ryou3 ≠ [] ∨ r.ryou4 ≠ [] ∨ r.tanni ≠ [] ∨ r.bikou ≠ [])

/-- The cell value after whitespace normalization and removal of the
aggregate-total marker (the code's intermediate value before any unit
handling). -/
def claimCleanPre (val : Str) : Str :=
  if containsSub (normS val) gokeiStr then pstrip (removeGokei (normS val)) else normS val

/-- The "cleaned value" of the HTML value-parser claim: the cell value
after removal of the aggregate-total marker and whitespace
normalization. -/
def claimClean (val : Str) : Str := normS (claimCleanPre val)

/-! ### Tokenization lemmas -/

/-- A well-formed token: nonempty, contains no whitespace. -/
def goodTok (t : Str) : Prop := t ≠ [] ∧ ∀ c ∈ t, isSpaceC c = false

theorem splitTokens_ne_nil {d : Char} (hd : isSpaceC d = false) (r : Str) :
    splitTokens (d :: r) ≠ [] := by
  rw [splitTokens]
  simp only [hd, Bool.false_eq_true, if_false]
  split <;> simp

theorem splitTokens_good : ∀ (s : Str), ∀ t ∈ splitTokens s, goodTok t := by
  intro s
  induction s with
  | nil => intro t ht; simp [splitTokens] at ht
  | cons c rest ih =>
    intro t ht
    rw [splitTokens] at ht
    by_cases hc : isSpaceC c = true
    · simp only [hc, if_true] at ht
      exact ih t ht
    · rw [Bool.not_eq_true] at hc
      simp only [hc, Bool.false_eq_true, if_false] at ht
      by_cases hd : isSpaceC (rest.headD ' ') = true
      · simp only [hd, if_true, List.mem_cons] at ht
        rcases ht with h | h
        · subst h
          exact ⟨by simp, by intro x hx; simp at hx; subst hx; exact hc⟩
        · exact ih t h
      · rw [Bool.not_eq_true] at hd
        simp only [hd, Bool.false_eq_true, if_false, List.mem_cons] at ht
        have hrest : rest ≠ [] := by
          intro he; rw [he] at hd; simp [List.headD] at hd; exact absurd hd (by decide)
        rcases List.exists_cons_of_ne_nil hrest with ⟨d, r', her⟩
        subst her
        simp only [List.headD_cons] at hd
        have hne := splitTokens_ne_nil hd r'
        rcases List.exists_cons_of_ne_nil hne with ⟨t0, ts0, he⟩
        rcases ht with h | h
        · subst h
          have ht0 := ih t0 (by rw [he]; exact List.mem_cons_self _ _)
          refine ⟨by simp, ?_⟩
          intro x hx
          rw [he] at hx
          simp only [List.headD_cons, List.mem_cons] at hx
          rcases hx with h1 | h1
          · subst h1; exact hc
          · exact ht0.2 x h1
        · rw [he] at h
          exact ih t (by rw [he]; exact List.mem_cons_of_mem _ h)

theorem splitTokens_single : ∀ (t : Str), goodTok t → splitTokens t = [t] := by
  intro t
  induction t with
  | nil => intro h; exact absurd rfl h.1
  | cons c r ih =>
    intro h
    have hc : isSpaceC c = false := h.2 c (List.mem_cons_self _ _)
    rw [splitTokens]
    simp only [hc, Bool.false_eq_true, if_false]
    cases r with
    | nil => simp [splitTokens]
    | cons d r' =>
      have hd : isSpaceC d = false := h.2 d (by simp)
      have hr : splitTokens (d :: r') = [d :: r'] := by
        refine ih ⟨by simp, ?_⟩
        intro x hx
        exact h.2 x (List.mem_cons_of_mem _ hx)
      simp [hd, hr]

theorem splitTokens_token_space (t rest : Str) (h : goodTok t) :
    splitTokens (t ++ ' ' :: rest) = t :: splitTokens rest := by
  induction t with
  | nil => exact absurd rfl h.1
  | cons c r ih =>
    have hc : isSpaceC c = false := h.2 c (List.mem_cons_self _ _)
    cases r with
    | nil =>
      rw [List.cons_append, List.nil_append, splitTokens]
      have hsp : isSpaceC ' ' = true := by decide
      simp only [hc, Bool.false_eq_true, if_false, List.headD_cons, hsp, if_true]
      rw [splitTokens]
      simp [hsp]
    | cons d r' =>
      have hd : isSpaceC d = false := h.2 d (by simp)
      have hr : splitTokens ((d :: r') ++ ' ' :: rest) = (d :: r') :: splitTokens rest := by
        refine ih ⟨by simp, ?_⟩
        intro x hx
        exact h.2 x (List.mem_cons_of_mem _ hx)
      rw [List.cons_append, splitTokens]
      simp only [List.cons_append, List.headD_cons, hc, hd, Bool.false_eq_true, if_false]
      rw [List.cons_append] at hr
      simp [hr]

theorem splitTokens_interc : ∀ (ts : List Str), (∀ t ∈ ts, goodTok t) →
    splitTokens (interc ts) = ts := by
  intro ts
  induction ts with
  | nil => intro _; rfl
  | cons t ts' ih =>
    intro h
    cases ts' with
    | nil =>
      rw [interc]
      exact splitTokens_single t (h t (List.mem_cons_self _ _))
    | cons t2 ts2 =>
      have hu : interc (t :: t2 :: ts2) = t ++ ' ' :: interc (t2 :: ts2) := rfl
      rw [hu, splitTokens_token_space t _ (h t (List.mem_cons_self _ _))]
      rw [ih (fun x hx => h x (List.mem_cons_of_mem _ hx))]

theorem mem_amountHits {c1 : List Str} {i : Nat} (h : i ∈ amountHits c1) :
    i < c1.length ∧ tokenIsAmount (c1.getD i []) = true := by
  simpa [amountHits, List.mem_filter] using h

theorem getD_mem_of_lt {l : List Str} {i : Nat} (h : i < l.length) : l.getD i [] ∈ l := by
  rw [List.getD_eq_getElem l [] h]
  exact List.getElem_mem h

/-- C9 (implicit).  After the Token Redistributor processes a row, the
rejoined column strings contain no empty tokens (`_join_tokens` filters them
out), so the empty-token padding inserted into column 1 does not survive:
when the single amount token sits at index `i` of column 0 and `i - 1`
exceeds the length of column 1's token list, the moved token ends up
appended right after the original column-1 tokens (index = original token
count), not at index `i - 1`. -/
theorem moveAmountRow_padding_dropped (a b : Str) (i : Nat)
    (hhits : amountHits (splitTokens a) = [i])
    (hge : 1 ≤ i)
    (hlen : (splitTokens b).length < i - 1) :
    splitTokens (moveAmountRow a b).2 =
      splitTokens b ++ [(splitTokens a).getD i []] ∧
    (∀ t ∈ splitTokens (moveAmountRow a b).1, t ≠ []) ∧
    (∀ t ∈ splitTokens (moveAmountRow a b).2, t ≠ []) := by
  refine ⟨?_, fun t ht => (splitTokens_good _ t ht).1, fun t ht => (splitTokens_good _ t ht).1⟩
  have hmem : i ∈ amountHits (splitTokens a) := by
    rw [hhits]; exact List.mem_cons_self _ _
  obtain ⟨hi, _⟩ := mem_amountHits hmem
  have hmoved : goodTok ((splitTokens a).getD i []) :=
    splitTokens_good a _ (getD_mem_of_lt hi)
  set c1 := splitTokens a with hc1
  set c2 := splitTokens b with hc2
  set moved := c1.getD i [] with hmv
  have hne : ¬ i = 0 := by omega
  have hpr : processHits (amountHits c1).reverse c1 c2 =
      (c1.eraseIdx i,
        (c2 ++ List.replicate (i - 1 - c2.length) []).insertIdx (i - 1) moved) := by
    rw [hhits, List.reverse_singleton, processHits]
    simp only [hne, if_false, hlen, if_true, processHits]
  have hlen2 : (c2 ++ List.replicate (i - 1 - c2.length) ([] : Str)).length = i - 1 := by
    simp [List.length_append, List.length_replicate]
    omega
  have haux : ∀ (l : List Str) (x : Str), l.length = i - 1 → l.insertIdx (i - 1) x = l ++ [x] := by
    intro l x h
    rw [← h]
    exact List.insertIdx_length_self l x
  have hins : (c2 ++ List.replicate (i - 1 - c2.length) ([] : Str)).insertIdx (i - 1) moved
      = c2 ++ List.replicate (i - 1 - c2.length) [] ++ [moved] :=
    haux _ _ hlen2
  have hout : (moveAmountRow a b).2 =
      joinTokens (c2 ++ List.replicate (i - 1 - c2.length) [] ++ [moved]) := by
    show (joinTokens (processHits (amountHits c1).reverse c1 c2).2) = _
    rw [hpr, hins]
  rw [hout]
  have hfil : (c2 ++ List.replicate (i - 1 - c2.length) [] ++ [moved]).filter (· ≠ []) =
      c2 ++ [moved] := by
    rw [List.filter_append, List.filter_append]
    have h1 : c2.filter (· ≠ []) = c2 :=
      List.filter_eq_self.mpr (fun t ht => by
        simpa using (splitTokens_good b t ht).1)
    have h2 : (List.replicate (i - 1 - c2.length) ([] : Str)).filter (· ≠ []) = [] := by
      simp
    have h3 : ([moved] : List Str).filter (· ≠ []) = [moved] := by
      simp [hmoved.1]
    rw [h1, h2, h3, List.append_nil]
  rw [joinTokens, hfil]
  exact splitTokens_interc (c2 ++ [moved]) (by
    intro t ht
    rcases List.mem_append.mp ht with h | h
    · exact splitTokens_good b t h
    · simp at h; subst h; exact hmoved)

/-- Witness for C9 at a concrete row: column 0 `"Foo Bar Baz 5ｇ"` (amount
token at index 3, target position 2), column 1 `"X"` (one token). -/
theorem moveAmountRow_padding_dropped_witness :
    splitTokens (moveAmountRow (ofS "Foo Bar Baz 5ｇ") (ofS "X")).2 =
      splitTokens (ofS "X") ++ [(splitTokens (ofS "Foo Bar Baz 5ｇ")).getD 3 []] :=
  (moveAmountRow_padding_dropped (ofS "Foo Bar Baz 5ｇ") (ofS "X") 3
    (by decide) (by decide) (by decide)).1

/-! ### C2: Token Redistributor -/

/-- C2 counterexample.  The claim's concrete example uses the ASCII
`"12g"`; `_TOKEN_IS_AMOUNT` only accepts the full-width `ｇ` (U+FF47), so
the row `["Foo", "12g", "Bar"] / ["X"]` is left unchanged, not redistributed
to `["Foo", "Bar"] / ["12g", "X"]`. -/
theorem moveAmountRow_ascii_g_untouched :
    moveAmountRow (ofS "Foo 12g Bar") (ofS "X") = (ofS "Foo 12g Bar", ofS "X") ∧
    moveAmountRow (ofS "Foo 12g Bar") (ofS "X") ≠ (ofS "Foo Bar", ofS "12g X") := by
  decide

/-! ### C3: tables outside the 2-column / ≥4-column schemas -/

/-- C3 counterexample.  A 3-column table is not skipped by the Record
Synthesizer: it produces records (via the 2-column path). -/
theorem dfToRecords_three_cols_not_skipped :
    dfToRecords 3 [[ofS "Alpha", ofS "5ｇ", ofS "x"]] (ofS "u") ≠ [] := by
  decide

/-- C3 amended.  A table whose column count matches neither schema is
not skipped: `df_to_records` treats any table with fewer than 4 columns
exactly like a 2-column table (a 3-column table yields the same records as
its first two columns), and `row_to_record` treats a 3-cell row exactly as
its first two cells; each table is processed independently, so the other
tables are unaffected. -/
theorem synthesizer_under_four_cols_via_two_col :
    (∀ (rows : List (List Str)) (url : Str),
        dfToRecords 3 rows url = dfToRecords 2 rows url) ∧
    (∀ a b c : Str, rowToRecord [a, b, c] = rowToRecord [a, b]) ∧
    (∀ (items : List Df) (df : Df) (url : Str),
        pdfRunRecords (items ++ [df]) url = pdfRunRecords items url ++ pdfTableRecords df url) := by
  refine ⟨fun rows url => rfl, fun a b c => rfl, fun items df url => ?_⟩
  simp [pdfRunRecords]

/-! ### C4: orchestrator failure condition -/

/-- C4 counterexample.  A run over one (non-empty) extracted table both
of whose rows are classifier noise produces no records at all, yet the
orchestrator does not signal failure: `sys.exit(1)` fires only when the
extracted table list itself is empty. -/
theorem pdfRun_silent_empty_records :
    pdfRunRecords [⟨2, [[ofS "成分名", ofS "x"], [ofS "成分名", ofS "y"]]⟩] (ofS "u") = [] ∧
    pdfRunFails [⟨2, [[ofS "成分名", ofS "x"], [ofS "成分名", ofS "y"]]⟩] = false := by
  decide

/-- C4 amended.  The orchestrator surfaces a failure exactly when the
extracted-table sequence is empty (in which case the record sequence is
empty as well); a run whose non-empty table sequence yields zero records is
not surfaced as a failure — the append step merely becomes a no-op. -/
theorem pdfRunFails_iff_no_tables :
    (∀ items : List Df, pdfRunFails items = true ↔ items = []) ∧
    (∀ url : Str, pdfRunRecords [] url = []) := by
  refine ⟨fun items => ?_, fun url => rfl⟩
  simp [pdfRunFails, List.isEmpty_iff]

/-! ### C5: 2-column synthesizer example -/

/-- C5 counterexample.  With the claim's ASCII amounts `"5g 合計量として10g"`
the unit stripper (which removes only the full-width `ｇ` and 国際単位)
leaves `amount1 = "5g"` and `"10g"`, not `"5"` and `"10"`. -/
theorem dfToRecords_ascii_example_not_stripped :
    (dfToRecords 2 [[ofS "Alpha Beta", ofS "5g 合計量として10g"]] (ofS "u")).map Rec.ryou1 =
      [ofS "5g", ofS "10g"] ∧
    (dfToRecords 2 [[ofS "Alpha Beta", ofS "5g 合計量として10g"]] (ofS "u")).map Rec.ryou1 ≠
      [ofS "5", ofS "10"] := by
  decide

/-- C5 amended.  For the row `["Alpha Beta", "5ｇ 合計量として10ｇ"]`
(full-width `ｇ`, equal token counts, no condition popped) the 2-column
synthesizer produces exactly the two claimed records in order:
(`Alpha`, amount1 `5`, unit weight, empty note) and
(`Beta`, amount1 `10`, unit weight, aggregate-total note). -/
theorem dfToRecords_two_col_example (url : Str) :
    dfToRecords 2 [[ofS "Alpha Beta", ofS "5ｇ 合計量として10ｇ"]] url =
      [{ seibunn := ofS "Alpha", jouken := [], ryou1 := ofS "5", ryou2 := [], ryou3 := [],
         ryou4 := [], tanni := ofS "g", bikou := [], url := url },
       { seibunn := ofS "Beta", jouken := [], ryou1 := ofS "10", ryou2 := [], ryou3 := [],
         ryou4 := [], tanni := ofS "g", bikou := gokeiStr, url := url }] := rfl

/-! ### C6: (non-)idempotence of the Cell Normalizer -/

/-- C6.  The Cell Normalizer is *not* idempotent: on
`"x 2－エチル 2－エチル"` the first pass rewrites only the first
` 2－エチル` occurrence (the scan resumes after the matched fragment, so
the space before the second occurrence — although not preceded by a comma —
is skipped), and the second pass rewrites the remaining one. -/
theorem stripCell_not_idempotent :
    stripCell (ofS "x 2－エチル 2－エチル") = ofS "x,2－エチル 2－エチル" ∧
    stripCell (stripCell (ofS "x 2－エチル 2－エチル")) = ofS "x,2－エチル,2－エチル" ∧
    stripCell (stripCell (ofS "x 2－エチル 2－エチル")) ≠
      stripCell (ofS "x 2－エチル 2－エチル") := by
  decide

/-! ### C7: Row Classifier -/

/-- C7 counterexample.  The three drop conditions are split between the
two variants: the PDF-variant classifier (`drop_unwanted_rows`) keeps the
three-entry header-template row even though claim condition (3) holds for
it, and the HTML-variant classifier (`is_header_row`) keeps the all-digit
row `["12", "345", ""]` even though claim condition (1) holds for it. -/
theorem rowClassifier_conditions_split :
    dropRowPdf expectedHeader = false ∧ headerTemplateRow expectedHeader ∧
    isHeaderRow [ofS "12", ofS "345", ofS ""] = false ∧
    digitNoiseRow [ofS "12", ofS "345", ofS ""] := by
  exact ⟨by decide, by unfold headerTemplateRow; decide, by decide,
    by unfold digitNoiseRow; decide⟩

/-- C7 amended.  Each variant's Row Classifier drops exactly the rows
its own conditions describe: the PDF variant drops exactly when condition
(1) (digit-noise row) or condition (2) (成分名 header) holds, the HTML
variant drops exactly when condition (3) (header template) holds, kept rows
are kept in order (the filter output is a sublist), and in particular
`["12", "345", ""]` is dropped (ratio 1.0) and `["12", "abc"]` kept (0.5)
by the PDF variant. -/
theorem rowClassifier_per_variant :
    (∀ row : List Str, dropRowPdf row = true ↔ (digitNoiseRow row ∨ seibunmeiHeaderRow row)) ∧
    (∀ row : List Str, isHeaderRow row = true ↔ headerTemplateRow row) ∧
    (∀ rows : List (List Str), (dropUnwantedRows rows).Sublist rows) ∧
    dropRowPdf [ofS "12", ofS "345", ofS ""] = true ∧
    dropRowPdf [ofS "12", ofS "abc"] = false := by
  refine ⟨fun row => ?_, fun row => ?_, fun rows => List.filter_sublist _, by decide, by decide⟩
  · simp only [dropRowPdf, digitNoiseRow, seibunmeiHeaderRow, Bool.or_eq_true,
      Bool.and_eq_true, decide_eq_true_eq, beq_iff_eq]
    constructor
    · rintro (⟨h1, h2⟩ | h)
      · exact Or.inl ⟨List.length_pos.mp h1, h2⟩
      · exact Or.inr h
    · rintro (⟨h1, h2⟩ | h)
      · exact Or.inl ⟨List.length_pos.mpr h1, h2⟩
      · exact Or.inr h
  · simp only [isHeaderRow, headerTemplateRow, beq_iff_eq]

/-! ### C2 amended: the amount-token recognizer matches the spec's shape -/

theorem takeWhile_dropWhile_append {p : Char → Bool} :
    ∀ (a b : Str), (∀ c ∈ a, p c = true) → (∀ d r, b = d :: r → p d = false) →
    (a ++ b).takeWhile p = a ∧ (a ++ b).dropWhile p = b := by
  intro a
  induction a with
  | nil =>
    intro b _ hb
    cases b with
    | nil => simp
    | cons d r => simp [List.takeWhile_cons, List.dropWhile_cons, hb d r rfl]
  | cons c a' ih =>
    intro b ha hb
    have hc : p c = true := ha c (List.mem_cons_self _ _)
    have h2 := ih b (fun x hx => ha x (List.mem_cons_of_mem _ hx)) hb
    simp [List.takeWhile_cons, List.dropWhile_cons, hc, h2.1, h2.2]

/-- C2 amended.  The Token Redistributor recognizes exactly the tokens
of the claimed shape — digits, optional decimal fraction, then the weight
marker or international-unit marker — with the weight marker being the
full-width `ｇ` (U+FF47); and on the full-width row
`["Foo", "12ｇ", "Bar"] / ["X"]` the amount token at index 1 moves to
column 1 at index 0, yielding `["Foo", "Bar"] / ["12ｇ", "X"]`. -/
theorem tokenIsAmount_shape_and_move :
    (∀ t : Str, tokenIsAmount t = true ↔ AmountShape t) ∧
    moveAmountRow (ofS "Foo 12ｇ Bar") (ofS "X") = (ofS "Foo Bar", ofS "12ｇ X") := by
  refine ⟨fun t => ?_, by decide⟩
  constructor
  · intro h
    simp only [tokenIsAmount, Bool.and_eq_true, Bool.or_eq_true, decide_eq_true_eq] at h
    obtain ⟨hne, hrest⟩ := h
    have hsplit : t.takeWhile isDigitC ++ t.dropWhile isDigitC = t :=
      List.takeWhile_append_dropWhile (p := isDigitC) (l := t)
    have hdig : ∀ c ∈ t.takeWhile isDigitC, isDigitC c = true :=
      fun c hc => List.mem_takeWhile_imp hc
    rcases hrest with hsuf | hm
    · exact ⟨t.takeWhile isDigitC, [], t.dropWhile isDigitC,
        by rw [List.append_nil, hsplit], hne, hdig, Or.inl rfl, hsuf⟩
    · split at hm
      case h_1 r2 heq =>
        obtain ⟨hfs, hms⟩ := Bool.and_eq_true_iff.mp hm
        rw [decide_eq_true_eq] at hfs
        rw [Bool.or_eq_true, decide_eq_true_eq, decide_eq_true_eq] at hms
        refine ⟨t.takeWhile isDigitC, '.' :: r2.takeWhile isDigitC, r2.dropWhile isDigitC,
          ?_, hne, hdig, Or.inr ⟨r2.takeWhile isDigitC, rfl, hfs,
            fun c hc => List.mem_takeWhile_imp hc⟩, hms⟩
        rw [List.append_assoc, List.cons_append, List.takeWhile_append_dropWhile,
          ← heq, hsplit]
      case h_2 => exact absurd hm (by simp)
  · rintro ⟨ds, fr, mk, ht, hds, hdig, hfr, hmk⟩
    have hmkhead : ∀ d r, mk = d :: r → isDigitC d = false := by
      rcases hmk with h | h <;> subst h <;> intro d r hdr
      · cases hdr; decide
      · cases hdr; decide
    have hbhead : ∀ d r, fr ++ mk = d :: r → isDigitC d = false := by
      rcases hfr with h | ⟨fd, hfd, _, _⟩
      · subst h; simpa using hmkhead
      · subst hfd; intro d r hdr; cases hdr; decide
    have hsplit := takeWhile_dropWhile_append ds (fr ++ mk) hdig hbhead
    rw [List.append_assoc] at ht
    rw [ht]
    simp only [tokenIsAmount, Bool.and_eq_true, Bool.or_eq_true, decide_eq_true_eq,
      hsplit.1, hsplit.2]
    refine ⟨hds, ?_⟩
    rcases hfr with h | ⟨fd, hfd, hfdne, hfddig⟩
    · subst h
      rw [List.nil_append]
      rcases hmk with h | h <;> subst h
      · exact Or.inl (by decide)
      · exact Or.inl (by decide)
    · subst hfd
      right
      rw [List.cons_append]
      have hmk2 := takeWhile_dropWhile_append fd mk hfddig hmkhead
      simp only [hmk2.1, hmk2.2, Bool.and_eq_true, decide_eq_true_eq]
      refine ⟨hfdne, ?_⟩
      rcases hmk with h | h <;> subst h
      · decide
      · decide

/-! ### C1 / C8: invariants of the synthesized records -/

theorem containsSub_ne_nil {s pat : Str} (h : containsSub s pat = true) (hp : pat ≠ []) :
    s ≠ [] := by
  intro hs
  subst hs
  rw [containsSub] at h
  simp only [Bool.or_eq_true] at h
  rcases h with h | h
  · exact hp (List.isPrefixOf_iff_prefix.mp h |> List.prefix_nil.mp)
  · exact absurd h (by simp)

theorem haigou_ryou_ne_nil {s : Str} (h : containsHaigouFuka s = true) : s ≠ [] := by
  rw [containsHaigouFuka, Bool.or_eq_true] at h
  rcases h with h | h
  · exact containsSub_ne_nil h (by decide)
  · exact containsSub_ne_nil h (by decide)

theorem mem_rowRecords {ncols : Nat} {url : Str} {row : List Str} {r : Rec}
    (h : r ∈ rowRecords ncols url row) :
    ∃ (c1' c2 c3 c4 : List Str) (el : Bool) (cond : Str) (i : Nat),
      i < c1'.length ∧ (∀ t ∈ c1', goodTok t) ∧
      r = (if 4 ≤ ncols then mkRec4 url el cond c1' c2 c3 c4 i
           else mkRec2 url el cond c1' c2 i) := by
  simp only [rowRecords, List.mem_map, List.mem_range] at h
  obtain ⟨i, hi, hr⟩ := h
  refine ⟨_, _, _, _, _, _, i, hi, ?_, hr.symm⟩
  intro t ht
  by_cases hp : (!(splitTokens (cellAt row 0)).length ==
      (if 2 ≤ ncols then splitTokens (cellAt row 1) else []).length &&
      !(splitTokens (cellAt row 0)).isEmpty) = true
  · rw [if_pos hp] at ht
    exact splitTokens_good _ t (List.mem_of_mem_tail ht)
  · rw [if_neg hp] at ht
    exact splitTokens_good _ t ht

theorem mkRec2_retainable (url cond : Str) (el : Bool) (c1 c2 : List Str) (i : Nat)
    (hi : i < c1.length) (hg : ∀ t ∈ c1, goodTok t) :
    recRetainable (mkRec2 url el cond c1 c2 i) := by
  constructor
  · show c1.getD i [] ≠ []
    exact (hg _ (getD_mem_of_lt hi)).1
  · by_cases hh : containsHaigouFuka
        (stripUnitsForRyou (stripGokeiAndFlag (c2.getD i [])).1) = true
    · left
      show stripUnitsForRyou (stripGokeiAndFlag (c2.getD i [])).1 ≠ []
      exact haigou_ryou_ne_nil hh
    · right; right; right; right; left
      show (if containsHaigouFuka _ then [] else
        if hasKokusai (c2.getD i []) then kokusaiStr else ofS "g") ≠ []
      rw [if_neg hh]
      split
      · decide
      · decide

theorem mkRec4_retainable (url cond : Str) (el : Bool) (c1 c2 c3 c4 : List Str) (i : Nat)
    (hi : i < c1.length) (hg : ∀ t ∈ c1, goodTok t) :
    recRetainable (mkRec4 url el cond c1 c2 c3 c4 i) := by
  constructor
  · show c1.getD i [] ≠ []
    exact (hg _ (getD_mem_of_lt hi)).1
  · set r1 := (if ([(c2.getD i []), (c3.getD i []), (c4.getD i [])].find?
        (fun v => containsSub v gokeiStr)).getD [] ≠ []
      then stripUnitsForRyou
        (stripGokeiAndFlag (([(c2.getD i []), (c3.getD i []), (c4.getD i [])].find?
          (fun v => containsSub v gokeiStr)).getD [])).1
      else []) with hr1
    by_cases hh : containsHaigouFuka r1 = true
    · left
      show r1 ≠ []
      exact haigou_ryou_ne_nil hh
    · right; right; right; right; left
      show (if containsHaigouFuka r1 then [] else
        if hasKokusai (([(c2.getD i []), (c3.getD i []), (c4.getD i [])].find?
            (fun v => containsSub v gokeiStr)).getD []) || hasKokusai (c2.getD i []) ||
            hasKokusai (c3.getD i []) || hasKokusai (c4.getD i []) then kokusaiStr
        else ofS "g") ≠ []
      rw [if_neg hh]
      split
      · decide
      · decide

/-- C1.  Every record that reaches the output handed to the storage
collaborator satisfies the retention predicate: in the HTML variant the
record filter of `main` keeps a record only if its name is non-empty and a
meaningful field is non-empty; in the PDF variant every record synthesized
by `df_to_records` already satisfies the same predicate (its name token is
never empty, and its unit is empty only when `amount1` carries a
non-compliant marker and is therefore non-empty), so no record failing the
predicate ever reaches the output in either variant. -/
theorem recordFilter_retained_only_if :
    (∀ (tables : List (List (List Str))) (r : HRec),
        r ∈ htmlMainRecords tables → hRecRetainable r) ∧
    (∀ (ncols : Nat) (rows : List (List Str)) (url : Str) (r : Rec),
        r ∈ dfToRecords ncols rows url → recRetainable r) := by
  constructor
  · intro tables r h
    simp only [htmlMainRecords, List.mem_flatten, List.mem_map] at h
    obtain ⟨l, ⟨t, _, hl⟩, hr⟩ := h
    rw [← hl] at hr
    rw [List.mem_filter] at hr
    obtain ⟨_, hkeep⟩ := hr
    simp only [Bool.and_eq_true, decide_eq_true_eq] at hkeep
    obtain ⟨hname, hmean⟩ := hkeep
    refine ⟨hname, ?_⟩
    rw [hasMeaningfulValues] at hmean
    simp only [Bool.or_eq_true, decide_eq_true_eq] at hmean
    have ne_of_pstrip : ∀ s : Str, pstrip s ≠ [] → s ≠ [] := by
      intro s h hs; subst hs; exact h rfl
    rcases hmean with ((((h | h) | h) | h) | h) | h
    · exact Or.inl (ne_of_pstrip _ h)
    · exact Or.inr (Or.inl (ne_of_pstrip _ h))
    · exact Or.inr (Or.inr (Or.inl (ne_of_pstrip _ h)))
    · exact Or.inr (Or.inr (Or.inr (Or.inl (ne_of_pstrip _ h))))
    · exact Or.inr (Or.inr (Or.inr (Or.inr (Or.inl (ne_of_pstrip _ h)))))
    · exact Or.inr (Or.inr (Or.inr (Or.inr (Or.inr (ne_of_pstrip _ h)))))
  · intro ncols rows url r h
    simp only [dfToRecords, List.mem_flatten, List.mem_map] at h
    obtain ⟨l, ⟨row, _, hl⟩, hr⟩ := h
    rw [← hl] at hr
    obtain ⟨c1', c2, c3, c4, el, cond, i, hi, hg, he⟩ := mem_rowRecords hr
    subst he
    split
    · exact mkRec4_retainable url cond el c1' c2 c3 c4 i hi hg
    · exact mkRec2_retainable url cond el c1' c2 i hi hg

/-- Witness for C1: the HTML row `["A", "5g"]` yields a retained record and
the PDF row `["A", "5ｇ"]` yields a synthesized record; both satisfy the
retention predicate. -/
theorem recordFilter_retained_only_if_witness :
    hRecRetainable
      { hRecEmpty with seibunmei := ofS "A", amt1 := ofS "5", tanni := ofS "g" } ∧
    recRetainable
      { seibunn := ofS "A", jouken := [], ryou1 := ofS "5", ryou2 := [], ryou3 := [],
        ryou4 := [], tanni := ofS "g", bikou := [], url := ofS "u" } :=
  ⟨recordFilter_retained_only_if.1 [[[ofS "A", ofS "5g"]]] _ (by decide),
   recordFilter_retained_only_if.2 2 [[ofS "A", ofS "5ｇ"]] (ofS "u") _ (by decide)⟩

/-- C8 (implicit).  In the PDF-variant 2-column synthesizer (fewer than
4 columns), a record's unit is empty exactly when its stripped `amount1`
contains the non-compliant marker 配合負荷/配合不可; otherwise the unit is
the international-unit marker or the weight `"g"`.  In particular a
fanned-out index that is out of range of the amount-token list (so the raw
amount value is empty) still receives unit `"g"`, never an empty unit. -/
theorem twoColUnit_empty_iff_haigou :
    (∀ (ncols : Nat) (rows : List (List Str)) (url : Str) (r : Rec),
        ncols < 4 → r ∈ dfToRecords ncols rows url →
        ((r.tanni = [] ↔ containsHaigouFuka r.ryou1 = true) ∧
         (r.tanni = [] ∨ r.tanni = kokusaiStr ∨ r.tanni = ofS "g"))) ∧
    (∀ (url cond : Str) (el : Bool) (c1 c2 : List Str) (i : Nat),
        c2.length ≤ i → (mkRec2 url el cond c1 c2 i).tanni = ofS "g") := by
  constructor
  · intro ncols rows url r h4 h
    simp only [dfToRecords, List.mem_flatten, List.mem_map] at h
    obtain ⟨l, ⟨row, _, hl⟩, hr⟩ := h
    rw [← hl] at hr
    obtain ⟨c1', c2, c3, c4, el, cond, i, hi, hg, he⟩ := mem_rowRecords hr
    rw [if_neg (by omega)] at he
    subst he
    have htan : (mkRec2 url el cond c1' c2 i).tanni =
        (if containsHaigouFuka (stripUnitsForRyou (stripGokeiAndFlag (c2.getD i [])).1)
         then [] else if hasKokusai (c2.getD i []) then kokusaiStr else ofS "g") := rfl
    have hry : (mkRec2 url el cond c1' c2 i).ryou1 =
        stripUnitsForRyou (stripGokeiAndFlag (c2.getD i [])).1 := rfl
    rw [htan, hry]
    by_cases hh : containsHaigouFuka
        (stripUnitsForRyou (stripGokeiAndFlag (c2.getD i [])).1) = true
    · rw [if_pos hh]
      exact ⟨⟨fun _ => hh, fun _ => rfl⟩, Or.inl rfl⟩
    · rw [if_neg hh]
      refine ⟨⟨fun he => ?_, fun hc => absurd hc hh⟩, ?_⟩
      · split at he
        · exact absurd he (by decide)
        · exact absurd he (by decide)
      · split
        · exact Or.inr (Or.inl rfl)
        · exact Or.inr (Or.inr rfl)
  · intro url cond el c1 c2 i hle
    have hget : c2.getD i [] = [] := List.getD_eq_default _ _ hle
    show (if containsHaigouFuka (stripUnitsForRyou (stripGokeiAndFlag (c2.getD i [])).1)
          then [] else if hasKokusai (c2.getD i []) then kokusaiStr else ofS "g") = ofS "g"
    rw [hget]
    decide

/-- Witness for C8 applied at the concrete 2-column table
`[["Alpha", "配合不可"]]` (non-compliant marker, so an empty unit) and at an
out-of-range fan-out index. -/
theorem twoColUnit_empty_iff_haigou_witness :
    (({ seibunn := ofS "Alpha", jouken := [], ryou1 := ofS "配合不可", ryou2 := [],
        ryou3 := [], ryou4 := [], tanni := [], bikou := [], url := ofS "u" } : Rec).tanni = []
      ↔ containsHaigouFuka (ofS "配合不可") = true) ∧
    (mkRec2 (ofS "u") true [] [ofS "Alpha"] [] 0).tanni = ofS "g" :=
  ⟨((twoColUnit_empty_iff_haigou.1 2 [[ofS "Alpha", ofS "配合不可"]] (ofS "u") _
      (by omega) (by decide)).1),
   twoColUnit_empty_iff_haigou.2 (ofS "u") [] true [ofS "Alpha"] [] 0 (by decide)⟩

/-! ### C10: infrastructure — membership and substring preservation -/

theorem containsSub_iff : ∀ (s pat : Str), containsSub s pat = true ↔ pat <:+: s := by
  intro s
  induction s with
  | nil =>
    intro pat
    rw [containsSub]
    simp only [Bool.or_eq_true]
    constructor
    · rintro (h | h)
      · rw [List.isPrefixOf_iff_prefix] at h
        rw [List.prefix_nil.mp h]
      · exact absurd h (by simp)
    · intro h
      rw [List.eq_nil_of_infix_nil h]
      exact Or.inl (by rw [List.isPrefixOf_iff_prefix])
  | cons c rest ih =>
    intro pat
    rw [containsSub]
    simp only [Bool.or_eq_true]
    rw [List.isPrefixOf_iff_prefix, ih pat]
    exact (List.infix_cons_iff).symm

theorem mem_mapIdeo {c : Char} {s : Str} (hm : c ∈ s) (hc : ¬ c = '　') :
    c ∈ mapIdeo s := by
  rw [mapIdeo]
  have : (if c = '　' then ' ' else c) = c := if_neg hc
  exact this ▸ List.mem_map_of_mem _ hm

theorem mem_collapseGo {p : Char → Bool} {c : Char} (hc : p c = false) :
    ∀ (s : Str) (b : Bool), c ∈ s → c ∈ collapseGo p s b := by
  intro s
  induction s with
  | nil => intro b h; simp at h
  | cons d rest ih =>
    intro b h
    rw [collapseGo]
    rcases List.mem_cons.mp h with he | hm
    · subst he
      rw [if_neg (by simp [hc])]
      split <;> simp
    · by_cases hd : p d = true
      · rw [if_pos hd]
        exact ih true hm
      · rw [if_neg hd]
        have := ih false hm
        split <;> simp [this]

theorem mem_dropWhile {p : Char → Bool} {c : Char} (hc : p c = false) :
    ∀ (s : Str), c ∈ s → c ∈ s.dropWhile p := by
  intro s
  induction s with
  | nil => intro h; simp at h
  | cons d rest ih =>
    intro h
    rw [List.dropWhile_cons]
    rcases List.mem_cons.mp h with he | hm
    · subst he
      rw [if_neg (by simp [hc])]
      exact List.mem_cons_self _ _
    · split
      · exact ih hm
      · exact List.mem_cons_of_mem _ hm

theorem mem_pstrip {c : Char} (hc : isSpaceC c = false) {s : Str} (hm : c ∈ s) :
    c ∈ pstrip s := by
  rw [pstrip, List.mem_reverse]
  exact mem_dropWhile hc _ (by rw [List.mem_reverse]; exact mem_dropWhile hc _ hm)

theorem mem_normS {c : Char} (hc : isSpaceC c = false) {s : Str} (hm : c ∈ s) :
    c ∈ normS s := by
  have hz : ¬ c = '　' := by
    intro he; subst he; exact absurd hc (by decide)
  exact mem_pstrip hc (mem_collapseGo hc _ false (mem_mapIdeo hm hz))

theorem mem_removeAllF {pat : Str} {c : Char} (hc : c ∉ pat) :
    ∀ (f : Nat) (s : Str), c ∈ s → c ∈ removeAllF pat f s := by
  intro f
  induction f with
  | zero => intro s h; exact h
  | succ f ih =>
    intro s h
    cases s with
    | nil => simp at h
    | cons d rest =>
      rw [removeAllF]
      by_cases hp : pat.isPrefixOf (d :: rest) = true
      · rw [if_pos hp]
        obtain ⟨t, ht⟩ := List.isPrefixOf_iff_prefix.mp hp
        have hdrop : (d :: rest).drop pat.length = t := by
          rw [← ht, List.drop_left]
        rw [hdrop]
        refine ih t ?_
        rw [← ht] at h
        rcases List.mem_append.mp h with h1 | h1
        · exact absurd h1 hc
        · exact h1
      · rw [if_neg hp]
        rcases List.mem_cons.mp h with he | hm
        · subst he; exact List.mem_cons_self _ _
        · exact List.mem_cons_of_mem _ (ih rest hm)

theorem isInfixRev {pat s : Str} (h : pat <:+: s) : pat.reverse <:+: s.reverse := by
  obtain ⟨u, v, huv⟩ := h
  exact ⟨v.reverse, u.reverse, by rw [← huv]; simp [List.reverse_append, List.append_assoc]⟩

theorem collapseGo_append_clean {p : Char → Bool} :
    ∀ (q s : Str), (∀ x ∈ q, p x = false) →
      collapseGo p (q ++ s) false = q ++ collapseGo p s false := by
  intro q
  induction q with
  | nil => intro s _; rfl
  | cons x q' ih =>
    intro s hq
    rw [List.cons_append, collapseGo,
      if_neg (by simp [hq x (List.mem_cons_self _ _)]), if_neg (by simp)]
    rw [ih s (fun y hy => hq y (List.mem_cons_of_mem _ hy)), List.cons_append]

theorem infix_of_collapseGo {p : Char → Bool} {pat : Str} (hne : pat ≠ [])
    (hcl : ∀ x ∈ pat, p x = false) :
    ∀ (s : Str) (b : Bool), pat <:+: s → pat <:+: collapseGo p s b := by
  intro s
  induction s with
  | nil =>
    intro b h
    exact absurd (List.eq_nil_of_infix_nil h) hne
  | cons c rest ih =>
    intro b h
    rcases List.infix_cons_iff.mp h with hp | hi
    · obtain ⟨w, hw⟩ := hp
      cases pat with
      | nil => exact absurd rfl hne
      | cons p0 ptl =>
        rw [List.cons_append] at hw
        injection hw with h0 h1
        subst h0
        have hptl : ∀ x ∈ ptl, p x = false :=
          fun x hx => hcl x (List.mem_cons_of_mem _ hx)
        rw [collapseGo, if_neg (by simp [hcl p0 (List.mem_cons_self _ _)])]
        have hrw : collapseGo p rest false = ptl ++ collapseGo p w false := by
          rw [← h1, collapseGo_append_clean ptl w hptl]
        split
        · refine ⟨[' '], collapseGo p w false, ?_⟩
          rw [hrw]
          simp
        · refine ⟨[], collapseGo p w false, ?_⟩
          rw [hrw]
          simp
    · have := ih (if p c then true else false) hi
      rw [collapseGo]
      by_cases hc : p c = true
      · rw [if_pos hc]
        simpa [hc] using ih true hi
      · rw [if_neg hc]
        have h2 := ih false hi
        split
        · exact h2.trans ((List.suffix_cons _ _).isInfix.trans (List.suffix_cons _ _).isInfix)
        · exact h2.trans (List.suffix_cons _ _).isInfix

theorem infix_of_dropWhile {p : Char → Bool} {pat : Str} (hne : pat ≠ [])
    (hcl : ∀ x ∈ pat, p x = false) :
    ∀ (s : Str), pat <:+: s → pat <:+: s.dropWhile p := by
  intro s
  induction s with
  | nil => intro h; exact absurd (List.eq_nil_of_infix_nil h) hne
  | cons c rest ih =>
    intro h
    rw [List.dropWhile_cons]
    by_cases hc : p c = true
    · rw [if_pos hc]
      rcases List.infix_cons_iff.mp h with hp | hi
      · obtain ⟨w, hw⟩ := hp
        cases pat with
        | nil => exact absurd rfl hne
        | cons p0 ptl =>
          rw [List.cons_append] at hw
          injection hw with h0 _
          subst h0
          exact absurd hc (by simp [hcl p0 (List.mem_cons_self _ _)])
      · exact ih hi
    · rw [if_neg hc]
      exact h

theorem infix_of_pstrip {pat : Str} (hne : pat ≠ [])
    (hcl : ∀ x ∈ pat, isSpaceC x = false) {s : Str} (h : pat <:+: s) :
    pat <:+: pstrip s := by
  have hrne : pat.reverse ≠ [] := by simpa using hne
  have hrcl : ∀ x ∈ pat.reverse, isSpaceC x = false := by
    intro x hx; exact hcl x (List.mem_reverse.mp hx)
  have h1 := infix_of_dropWhile hne hcl s h
  have h2 := isInfixRev h1
  have h3 := infix_of_dropWhile hrne hrcl _ h2
  have h4 := isInfixRev h3
  rwa [List.reverse_reverse] at h4

theorem mapIdeo_clean : ∀ (pat : Str), (∀ x ∈ pat, ¬ x = '　') → mapIdeo pat = pat := by
  intro pat
  induction pat with
  | nil => intro _; rfl
  | cons x q ih =>
    intro h
    rw [mapIdeo, List.map_cons, if_neg (h x (List.mem_cons_self _ _))]
    have := ih (fun y hy => h y (List.mem_cons_of_mem _ hy))
    rw [mapIdeo] at this
    rw [this]

theorem infix_of_mapIdeo {pat : Str} (hcl : ∀ x ∈ pat, ¬ x = '　') {s : Str}
    (h : pat <:+: s) : pat <:+: mapIdeo s := by
  obtain ⟨u, v, huv⟩ := h
  refine ⟨mapIdeo u, mapIdeo v, ?_⟩
  rw [← huv]
  have hp := mapIdeo_clean pat hcl
  simp only [mapIdeo, List.map_append] at hp ⊢
  rw [hp]

theorem infix_of_normS {pat : Str} (hne : pat ≠ [])
    (hcl : ∀ x ∈ pat, isSpaceC x = false) {s : Str} (h : pat <:+: s) :
    pat <:+: normS s := by
  have hz : ∀ x ∈ pat, ¬ x = '　' := by
    intro x hx he
    subst he
    exact absurd (hcl _ hx) (by decide)
  exact infix_of_pstrip hne hcl
    (infix_of_collapseGo hne hcl _ false (infix_of_mapIdeo hz h))

theorem infix_drop_clean_left {pat : Str} (hne : pat ≠ []) :
    ∀ (q t : Str), (∀ x ∈ pat, x ∉ q) → pat <:+: q ++ t → pat <:+: t := by
  intro q
  induction q with
  | nil => intro t _ h; exact h
  | cons x q' ih =>
    intro t hd h
    rw [List.cons_append] at h
    rcases List.infix_cons_iff.mp h with hp | hi
    · obtain ⟨w, hw⟩ := hp
      cases pat with
      | nil => exact absurd rfl hne
      | cons p0 ptl =>
        rw [List.cons_append] at hw
        injection hw with h0 _
        exact absurd (List.mem_cons_self x q') (h0 ▸ hd p0 (List.mem_cons_self _ _))
    · exact ih t (fun y hy hq => hd y hy (List.mem_cons_of_mem _ hq)) hi

theorem removeAllF_clean_head {pat : Str} (hp : pat ≠ []) :
    ∀ (q : Str), (∀ x ∈ q, x ∉ pat) → ∀ (f : Nat) (w : Str),
      ∃ X, removeAllF pat f (q ++ w) = q ++ X := by
  intro q
  induction q with
  | nil => intro _ f w; exact ⟨removeAllF pat f w, rfl⟩
  | cons x q' ih =>
    intro hd f w
    cases f with
    | zero => exact ⟨w, rfl⟩
    | succ f =>
      have hnp : pat.isPrefixOf (x :: (q' ++ w)) = false := by
        by_contra hx
        rw [Bool.not_eq_false, List.isPrefixOf_iff_prefix] at hx
        obtain ⟨w', hw'⟩ := hx
        cases pat with
        | nil => exact hp rfl
        | cons p0 ptl =>
          rw [List.cons_append] at hw'
          injection hw' with h0 _
          exact hd x (List.mem_cons_self _ _) (h0 ▸ List.mem_cons_self _ _)
      rw [List.cons_append, removeAllF, if_neg (by simp [hnp])]
      obtain ⟨X, hX⟩ := ih (fun y hy => hd y (List.mem_cons_of_mem _ hy)) f w
      exact ⟨X, by rw [hX, List.cons_append]⟩

theorem infix_of_removeAllF {pat' pat : Str} (hne : pat' ≠ []) (hp : pat ≠ [])
    (hd : ∀ x ∈ pat', x ∉ pat) :
    ∀ (f : Nat) (s : Str), pat' <:+: s → pat' <:+: removeAllF pat f s := by
  intro f
  induction f with
  | zero => intro s h; exact h
  | succ f ih =>
    intro s h
    cases s with
    | nil => exact absurd (List.eq_nil_of_infix_nil h) hne
    | cons c rest =>
      rw [removeAllF]
      by_cases hpre : pat.isPrefixOf (c :: rest) = true
      · rw [if_pos hpre]
        obtain ⟨t, ht⟩ := List.isPrefixOf_iff_prefix.mp hpre
        have hdrop : (c :: rest).drop pat.length = t := by rw [← ht, List.drop_left]
        rw [hdrop]
        refine ih t (infix_drop_clean_left hne pat t hd ?_)
        rw [ht]
        exact h
      · rw [if_neg hpre]
        rcases List.infix_cons_iff.mp h with hpr | hi
        · obtain ⟨w, hw⟩ := hpr
          cases pat' with
          | nil => exact absurd rfl hne
          | cons p0 ptl =>
            rw [List.cons_append] at hw
            injection hw with h0 h1
            subst h0
            obtain ⟨X, hX⟩ := removeAllF_clean_head hp ptl
              (fun y hy => hd y (List.mem_cons_of_mem _ hy)) f w
            rw [← h1, hX]
            exact ⟨[], X, by simp⟩
        · exact (ih rest hi).trans (List.suffix_cons _ _).isInfix

theorem numRe_chars {t : Str} (h : numRe t = true) :
    ∀ c ∈ t, isDigitC c = true ∨ c = '.' := by
  simp only [numRe, Bool.and_eq_true, Bool.or_eq_true, decide_eq_true_eq] at h
  obtain ⟨_, h2⟩ := h
  intro c hc
  have hsplit : t.takeWhile isDigitC ++ t.dropWhile isDigitC = t :=
    List.takeWhile_append_dropWhile (p := isDigitC) (l := t)
  rw [← hsplit] at hc
  rcases List.mem_append.mp hc with hm | hm
  · exact Or.inl (List.mem_takeWhile_imp hm)
  · rcases h2 with he | hm2
    · rw [he] at hm; simp at hm
    · split at hm2
      case h_1 r2 heq =>
        rw [heq] at hm
        rcases List.mem_cons.mp hm with hc0 | hc0
        · exact Or.inr hc0
        · obtain ⟨_, hr2b⟩ := Bool.and_eq_true_iff.mp hm2
          rw [decide_eq_true_eq] at hr2b
          have hr2 := hr2b
          have hs2 : r2.takeWhile isDigitC ++ r2.dropWhile isDigitC = r2 :=
            List.takeWhile_append_dropWhile (p := isDigitC) (l := r2)
          rw [← hs2] at hc0
          rcases List.mem_append.mp hc0 with hm3 | hm3
          · exact Or.inl (List.mem_takeWhile_imp hm3)
          · rw [hr2] at hm3; simp at hm3
      case h_2 => exact absurd hm2 (by simp)

theorem stripUnitsAndNote_spec (val : Str) :
    stripUnitsAndNote val =
      (let s1 := claimCleanPre val
       let s2 := if containsSub s1 kokusaiStr then removeKokusai s1 else s1
       let u1 : Str := if containsSub s1 kokusaiStr then kokusaiStr else []
       let s3 := if hasGchar s2 then dropGchars s2 else s2
       let u2 : Str := if hasGchar s2 then (if u1 = [] then ofS "g" else u1) else u1
       (normS s3,
        if numRe (normS s3) && u2.isEmpty then ofS "g" else u2,
        if containsSub (normS val) gokeiStr then gokeiStr else [])) := by
  simp only [stripUnitsAndNote, claimCleanPre]
  by_cases h1 : containsSub (normS val) gokeiStr = true <;>
    simp [h1, apply_ite Prod.fst, apply_ite Prod.snd]

/-- C10 (implicit).  In the HTML value parser `strip_units_and_note`, a
value containing neither the international-unit marker nor a `g`/`ｇ`
character but whose cleaned text (aggregate-total marker removed, whitespace
normalized) is a pure decimal number receives unit `"g"`; and the returned
unit is empty only when the cleaned value is non-numeric and neither the
international-unit marker nor a `g`/`ｇ` character appeared in the value. -/
theorem stripUnitsAndNote_unit_characterization :
    (∀ val : Str, containsSub val kokusaiStr = false → hasGchar val = false →
        numRe (claimClean val) = true → (stripUnitsAndNote val).2.1 = ofS "g") ∧
    (∀ val : Str, (stripUnitsAndNote val).2.1 = [] →
        numRe ((stripUnitsAndNote val).1) = false ∧
        containsSub val kokusaiStr = false ∧ hasGchar val = false) := by
  have kok_ne : (kokusaiStr : Str) ≠ [] := by decide
  have kok_sp : ∀ x ∈ kokusaiStr, isSpaceC x = false := by decide
  have kok_gokei : ∀ x ∈ kokusaiStr, x ∉ gokeiStr := by decide
  have gokei_ne : (gokeiStr : Str) ≠ [] := by decide
  have kok_isEmpty : (kokusaiStr : Str).isEmpty = false := by decide
  have g_isEmpty : (ofS "g").isEmpty = false := by decide
  have hIUprop : ∀ val : Str, containsSub val kokusaiStr = true →
      containsSub (claimCleanPre val) kokusaiStr = true := by
    intro val hv
    have h2 : kokusaiStr <:+: normS val :=
      infix_of_normS kok_ne kok_sp ((containsSub_iff _ _).mp hv)
    rw [claimCleanPre]
    split
    · exact (containsSub_iff _ _).mpr
        (infix_of_pstrip kok_ne kok_sp (infix_of_removeAllF kok_ne gokei_ne kok_gokei _ _ h2))
    · exact (containsSub_iff _ _).mpr h2
  have hGprop : ∀ val : Str, hasGchar val = true → hasGchar (claimCleanPre val) = true := by
    intro val hv
    rw [hasGchar, List.any_eq_true] at hv
    obtain ⟨c, hcm, hcg⟩ := hv
    simp only [Bool.or_eq_true, decide_eq_true_eq] at hcg
    have hcs : isSpaceC c = false := by rcases hcg with h | h <;> subst h <;> decide
    have hcgok : c ∉ gokeiStr := by rcases hcg with h | h <;> subst h <;> decide
    have h2 : c ∈ normS val := mem_normS hcs hcm
    have h3 : c ∈ claimCleanPre val := by
      rw [claimCleanPre]
      split
      · exact mem_pstrip hcs (mem_removeAllF hcgok _ _ h2)
      · exact h2
    rw [hasGchar, List.any_eq_true]
    refine ⟨c, h3, ?_⟩
    rcases hcg with h | h <;> subst h <;> decide
  constructor
  · intro val _ _ hNum
    rw [claimClean] at hNum
    have hIU1 : containsSub (claimCleanPre val) kokusaiStr = false := by
      by_contra hx
      rw [Bool.not_eq_false] at hx
      have h2 : kokusaiStr <:+: normS (claimCleanPre val) :=
        infix_of_normS kok_ne kok_sp ((containsSub_iff _ _).mp hx)
      have h3 : '国' ∈ normS (claimCleanPre val) := h2.subset (by decide)
      rcases numRe_chars hNum '国' h3 with hd | hd
      · exact absurd hd (by decide)
      · exact absurd hd (by decide)
    have hG1 : hasGchar (claimCleanPre val) = false := by
      by_contra hx
      rw [Bool.not_eq_false, hasGchar, List.any_eq_true] at hx
      obtain ⟨c, hcm, hcg⟩ := hx
      simp only [Bool.or_eq_true, decide_eq_true_eq] at hcg
      have hcs : isSpaceC c = false := by rcases hcg with h | h <;> subst h <;> decide
      have h3 : c ∈ normS (claimCleanPre val) := mem_normS hcs hcm
      rcases numRe_chars hNum c h3 with hd | hd
      · rcases hcg with h | h <;> subst h <;> exact absurd hd (by decide)
      · rcases hcg with h | h <;> subst h <;> exact absurd hd (by decide)
    rw [stripUnitsAndNote_spec]
    simp only [hIU1, hG1, Bool.false_eq_true, if_false, hNum, List.isEmpty_nil,
      Bool.and_true, if_true]
  · intro val hU
    rw [stripUnitsAndNote_spec] at hU
    dsimp only at hU
    by_cases cIU : containsSub (claimCleanPre val) kokusaiStr = true
    · exfalso
      simp only [cIU, if_true, kok_ne, if_neg kok_ne, ite_self, kok_isEmpty,
        Bool.and_false, Bool.false_eq_true, if_false] at hU
    · have cIU' : containsSub (claimCleanPre val) kokusaiStr = false :=
        Bool.eq_false_iff.mpr cIU
      simp only [cIU', Bool.false_eq_true, if_false] at hU
      by_cases cG : hasGchar (claimCleanPre val) = true
      · exfalso
        simp only [cG, if_true, if_pos rfl, g_isEmpty, Bool.and_false,
          Bool.false_eq_true, if_false] at hU
        exact absurd hU (by decide)
      · have cG' : hasGchar (claimCleanPre val) = false := Bool.eq_false_iff.mpr cG
        simp only [cG', Bool.false_eq_true, if_false, List.isEmpty_nil, Bool.and_true] at hU
        have hn : numRe (normS (claimCleanPre val)) = false := by
          by_contra hx
          rw [Bool.not_eq_false] at hx
          rw [hx, if_pos rfl] at hU
          exact absurd hU (by decide)
        refine ⟨?_, ?_, ?_⟩
        · rw [stripUnitsAndNote_spec]
          dsimp only
          simp only [cIU', cG', Bool.false_eq_true, if_false]
          exact hn
        · by_contra hx
          rw [Bool.not_eq_false] at hx
          rw [hIUprop val hx] at cIU'
          exact absurd cIU' (by decide)
        · by_contra hx
          rw [Bool.not_eq_false] at hx
          rw [hGprop val hx] at cG'
          exact absurd cG' (by decide)

/-- Witness for C10: `"合計量として12"` has no unit marker and cleans to the
number `12`, so its unit is `"g"`; `"abc"` has empty unit, so its cleaned
value is non-numeric and no unit marker or g character appeared. -/
theorem stripUnitsAndNote_unit_characterization_witness :
    (stripUnitsAndNote (ofS "合計量として12")).2.1 = ofS "g" ∧
    (numRe ((stripUnitsAndNote (ofS "abc")).1) = false ∧
     containsSub (ofS "abc") kokusaiStr = false ∧ hasGchar (ofS "abc") = false) :=
  ⟨stripUnitsAndNote_unit_characterization.1 (ofS "合計量として12")
      (by decide) (by decide) (by decide),
   stripUnitsAndNote_unit_characterization.2 (ofS "abc") (by decide)⟩
